import Mathlib

/-!
Verification of `src/genspn/distributions.py` (jaxmix).

Arrays over a feature dimension are modelled as total functions `ℕ → ℝ`
(only the indices below the array's length are ever relevant to a claim,
and every elementwise identity proved here holds at all indices).
A batch of observations is a `List` of such rows.  JAX PRNG keys are
modelled as a symbolic tree: `jax.random.split key` yields the two
children of `key`.  The primitive random draws (`loggamma`, standard
normal, dirichlet) are parameters of the sampling functions, so that the
data flow of keys and parameters into the draws is exactly the source's.
-/

namespace GenSpn

noncomputable section

/-- A one-dimensional real array, indexed by feature dimension. -/
abbrev Row : Type := ℕ → ℝ

/-- `NormalInverseGamma` parameters (distributions.py lines 8-12):
per-dimension arrays `m`, `l`, `a`, `b`. -/
@[ext]
structure NormalInverseGamma : Type where
  m : Row
  l : Row
  a : Row
  b : Row

/-- `Dirichlet` parameters (distributions.py lines 14-18):
`alpha` indexed by (feature dimension, category). -/
@[ext]
structure Dirichlet : Type where
  alpha : ℕ → ℕ → ℝ

/-- `Normal` likelihood parameters (distributions.py lines 20-25). -/
@[ext]
structure Normal : Type where
  mu : Row
  std : Row

/-- `Categorical` likelihood parameters (distributions.py lines 27-31):
`logprobs` indexed by (feature dimension, category). -/
@[ext]
structure Categorical : Type where
  logprobs : ℕ → ℕ → ℝ

/-- `GEM` stick-breaking hyperparameters (distributions.py lines 44-46). -/
structure GEM : Type where
  alpha : ℝ
  d : ℝ

/-- Batched `Normal` (leading cluster axis on every array). -/
structure BNormal : Type where
  mu : ℕ → Row
  std : ℕ → Row

/-- Batched `Categorical` (leading cluster axis on `logprobs`). -/
structure BCategorical : Type where
  logprobs : ℕ → ℕ → ℕ → ℝ

/-- Batched `Dirichlet` (leading cluster axis on `alpha`). -/
structure BDirichlet : Type where
  alpha : ℕ → ℕ → ℕ → ℝ

/-- `Normal.__getitem__` (line 24-25): `Normal(mu=self.mu[key], std=self.std[key])`. -/
def BNormal.getItem (n : BNormal) (key : ℕ) : Normal :=
  { mu := n.mu key, std := n.std key }

/-- `Dirichlet.__getitem__` (line 17-18): `Dirichlet(alpha=self.alpha[key])`. -/
def BDirichlet.getItem (dd : BDirichlet) (key : ℕ) : Dirichlet :=
  { alpha := dd.alpha key }

/-- `Categorical.__getitem__` (line 30-31): the source returns
`Categorical(logprobs=self.logprobs[0])` — the index `key` is ignored and
the cluster-0 slice is always taken. -/
def BCategorical.getItem (c : BCategorical) (key : ℕ) : Categorical :=
  { logprobs := c.logprobs 0 }

/-- Batch count `N = x.shape[0]` as a real (line 115). -/
def batchN (x : List Row) : ℝ := x.length

/-- Per-dimension batch sum `Σx = jnp.sum(x, axis=0)` (line 116). -/
def sumX (x : List Row) : Row := fun i => (x.map (fun r => r i)).sum

/-- Per-dimension batch sum of squares `Σx² = jnp.sum(x ** 2, axis=0)` (line 117). -/
def sumXsq (x : List Row) : Row := fun i => (x.map (fun r => (r i) ^ 2)).sum

/-- `posterior(dist: NormalInverseGamma, N, sum_x, sum_x_sq)`
(distributions.py lines 121-128):
`l = dist.l + N`; `m = (dist.l * dist.m + sum_x) / l`;
`a = dist.a + N / 2`;
`b = dist.b + 0.5 * (sum_x_sq + dist.l * dist.m ** 2 - l * m ** 2)`. -/
def posteriorNIGStats (dist : NormalInverseGamma) (N : ℝ) (sum_x sum_x_sq : Row) :
    NormalInverseGamma :=
  let l : Row := fun i => dist.l i + N
  let m : Row := fun i => (dist.l i * dist.m i + sum_x i) / l i
  { m := m
    l := l
    a := fun i => dist.a i + N / 2
    b := fun i =>
      dist.b i + 0.5 * (sum_x_sq i + dist.l i * dist.m i ^ 2 - l i * m i ^ 2) }

/-- `posterior(dist: NormalInverseGamma, x)` raw-batch path
(distributions.py lines 113-119): computes `N`, `Σx`, `Σx²` of the batch
and delegates to the statistics path. -/
def posteriorNIGBatch (dist : NormalInverseGamma) (x : List Row) : NormalInverseGamma :=
  posteriorNIGStats dist (batchN x) (sumX x) (sumXsq x)

/-- `jax.ops.segment_sum data c` at segment `k`: the sum of the entries of
`data` whose label in `c` is `k` (labels beyond either list's length, or
segments never labelled, contribute nothing). -/
def segsum (data : List ℝ) (c : List ℕ) (k : ℕ) : ℝ :=
  (((c.zip data).filter (fun p => p.1 = k)).map Prod.snd).sum

/-- `posterior(dist: NormalInverseGamma, x, c, max_clusters)`
(distributions.py lines 105-111): grouped sufficient statistics by
`segment_sum`, then the scalar statistics update vmapped over the cluster
axis; the result is the length-`Kmax` list of per-cluster posteriors. -/
def posteriorNIGClusters (dist : NormalInverseGamma) (x : List Row) (c : List ℕ)
    (Kmax : ℕ) : List NormalInverseGamma :=
  let N : ℕ → ℝ := fun k => segsum (x.map (fun _ => (1 : ℝ))) c k
  let sum_x : ℕ → Row := fun k i => segsum (x.map (fun r => r i)) c k
  let sum_x_sq : ℕ → Row := fun k i => segsum (x.map (fun r => (r i) ^ 2)) c k
  (List.range Kmax).map (fun k => posteriorNIGStats dist (N k) (sum_x k) (sum_x_sq k))

/-- `posterior(dist: Dirichlet, counts)` (distributions.py lines 136-138):
`Dirichlet(alpha=dist.alpha + counts)`. -/
def posteriorDirichletCounts (dist : Dirichlet) (counts : ℕ → ℕ → ℝ) : Dirichlet :=
  { alpha := fun d v => dist.alpha d v + counts d v }

/-- `jax.nn.one_hot v` with `num_classes = K`: the length-`K` indicator row
of value `v` (out-of-range values give the zero row). -/
def oneHot (K : ℕ) (v : ℕ) : ℕ → ℝ := fun j => if j < K ∧ v = j then 1 else 0

/-- `posterior(dist: Dirichlet, x, c, max_clusters)`
(distributions.py lines 130-134): one-hot encode the discrete batch with
`num_classes = ncat` (the category axis length of `alpha`), `segment_sum`
by cluster label, then the counts update vmapped over the cluster axis. -/
def posteriorDirichletClusters (dist : Dirichlet) (ncat : ℕ) (x : List (ℕ → ℕ))
    (c : List ℕ) (Kmax : ℕ) : List Dirichlet :=
  let counts : ℕ → ℕ → ℕ → ℝ := fun k d v => segsum (x.map (fun r => oneHot ncat (r d) v)) c k
  (List.range Kmax).map (fun k => posteriorDirichletCounts dist (counts k))

/-- The observations of the batch `x` carrying cluster label `k` in `c`
(the spec's "exactly the observations whose label is k"). -/
def clusterRows (x : List Row) (c : List ℕ) (k : ℕ) : List Row :=
  (((c.zip x).filter (fun p => p.1 = k)).map Prod.snd)

/-- The discrete observations of the batch `y` carrying cluster label `k`. -/
def clusterRowsNat (y : List (ℕ → ℕ)) (c : List ℕ) (k : ℕ) : List (ℕ → ℕ) :=
  (((c.zip y).filter (fun p => p.1 = k)).map Prod.snd)

/-- A JAX PRNG key, modelled symbolically: `sub k i` is the `i`-th key
obtained by splitting `k`. -/
inductive PRNGKey : Type where
  | base : ℕ → PRNGKey
  | sub : PRNGKey → ℕ → PRNGKey
deriving DecidableEq

/-- `jax.random.split key` (default `num=2`). -/
def keySplit (key : PRNGKey) : PRNGKey × PRNGKey :=
  (PRNGKey.sub key 0, PRNGKey.sub key 1)

/-- `sample(key, dist: NormalInverseGamma)` (distributions.py lines 70-81),
parametric over the interpretation of the primitive draws:
`G key a` is `jax.random.loggamma(key, a)` elementwise and `Z key i` is
the `i`-th component of `jax.random.normal(key, shape)`.  As in the
source, `keys = jax.random.split(key)` is computed, the loggamma draw is
taken with the original `key` (line 76, `keys[0]` is unused), the normal
draw with `keys[1]`, and the returned std is `exp(-log_lambda / 2)`
(line 81) while `mu` uses `std = exp(log_sigma / 2)` (lines 78-79). -/
def sampleNIG (G : PRNGKey → ℝ → ℝ) (Z : PRNGKey → ℕ → ℝ)
    (key : PRNGKey) (dist : NormalInverseGamma) : Normal :=
  let keys := keySplit key
  let log_lambda : Row := fun i => G key (dist.a i) - Real.log (dist.b i)
  let log_sigma : Row := fun i => -Real.log (dist.l i) - log_lambda i
  let std : Row := fun i => Real.exp (log_sigma i / 2)
  let mu : Row := fun i => dist.m i + Z keys.2 i * std i
  { mu := mu, std := fun i => Real.exp (-log_lambda i / 2) }

/-- `sample(key, dist: Dirichlet)` (distributions.py lines 65-68),
parametric over the dirichlet primitive draw `Ddraw key alpha`. -/
def sampleDirichlet (Ddraw : PRNGKey → (ℕ → ℕ → ℝ) → ℕ → ℕ → ℝ)
    (key : PRNGKey) (dist : Dirichlet) : Categorical :=
  { logprobs := fun d v => Real.log (Ddraw key dist.alpha d v) }

/-- `sample(key, dist: MixedConjugate)` (distributions.py lines 83-89):
splits the key and draws the `nig` component with `keys[0]` and the
`dirichlet` component with `keys[1]`. -/
def sampleMixedConjugate (G : PRNGKey → ℝ → ℝ) (Z : PRNGKey → ℕ → ℝ)
    (Ddraw : PRNGKey → (ℕ → ℕ → ℝ) → ℕ → ℕ → ℝ)
    (key : PRNGKey) (nig : NormalInverseGamma) (dirichlet : Dirichlet) :
    Normal × Categorical :=
  let keys := keySplit key
  (sampleNIG G Z keys.1 nig, sampleDirichlet Ddraw keys.2 dirichlet)

/-- JAX gather index semantics for `arr[i]` on an axis of length `n`:
a negative index is wrapped Python-style, then the result is clamped
into `[0, n-1]` (out-of-bounds retrieval never raises in JAX). -/
def jaxIndex (n : ℕ) (i : ℤ) : ℕ :=
  let w : ℤ := if i < 0 then i + n else i
  (min (max w 0) ((n : ℤ) - 1)).toNat

/-- `logpdf(dist: Categorical, x)` (distributions.py lines 144-146):
`jnp.sum(dist.logprobs[jnp.arange(x.shape[-1]), x])`, where `D` is the
number of feature dimensions and `K` the category-axis length of
`logprobs`; the gather uses JAX index semantics (`jaxIndex`). -/
def logpdfCategorical (dist : Categorical) (D K : ℕ) (x : ℕ → ℤ) : ℝ :=
  ∑ d in Finset.range D, dist.logprobs d (jaxIndex K (x d))

/-- `logpdf(dist: F, x, c)` (distributions.py lines 159-162) for
`F = Categorical`: index the batched container at cluster `c`, then
evaluate the single-cluster density. -/
def logpdfCategoricalCluster (bc : BCategorical) (D K : ℕ) (x : ℕ → ℤ) (c : ℕ) : ℝ :=
  logpdfCategorical (bc.getItem c) D K x

/-- `jax.scipy.special.xlogy x y`: `0` when `x = 0`, else `x * log y`. -/
def xlogy (x y : ℝ) : ℝ := if x = 0 then 0 else x * Real.log y

/-- `jax.scipy.special.xlog1py x y`: `0` when `x = 0`, else `x * log (1 + y)`. -/
def xlog1py (x y : ℝ) : ℝ := if x = 0 then 0 else x * Real.log (1 + y)

/-- `jax.scipy.special.betaln a b = lgamma a + lgamma b - lgamma (a + b)`. -/
def betaln (a b : ℝ) : ℝ :=
  Real.log (Real.Gamma a) + Real.log (Real.Gamma b) - Real.log (Real.Gamma (a + b))

/-- `jax.scipy.stats.beta.logpdf x a b` (with `loc = 0`, `scale = 1`):
`-inf` outside the support `[0, 1]`, otherwise
`xlogy (a-1) x + xlog1py (b-1) (-x) - betaln a b`.  Valued in `EReal`
so that the out-of-support `-inf` branch is represented exactly. -/
def betaLogpdf (x a b : ℝ) : EReal :=
  if 1 < x ∨ x < 0 then ⊥
  else ((xlogy (a - 1) x + xlog1py (b - 1) (-x) - betaln a b : ℝ) : EReal)

/-- The raw stick-breaking fractions of `logpdf(dist: GEM, pi, K)`
(distributions.py line 154): `1 - pi[i] / pi[i-1]`, where for `i = 0` the
Python index `-1` wraps to the last entry. -/
def gemBetasRaw (pi : List ℝ) (i : ℕ) : ℝ :=
  1 - pi.getD i 0 / pi.getD (if i = 0 then pi.length - 1 else i - 1) 0

/-- The stick-breaking fractions after the `betas.at[0].set(pi[0])`
override (distributions.py line 155). -/
def gemBetas (pi : List ℝ) (i : ℕ) : ℝ :=
  if i = 0 then pi.getD 0 0 else gemBetasRaw pi i

/-- `logpdf(dist: GEM, pi, K)` (distributions.py lines 152-157): evaluate
each fraction under `Beta(1 - d, alpha + (i+1) * d)` and sum the first `K`
terms of the length-`len(pi)` array (`jnp.sum(logprobs[:K])`). -/
def logpdfGEM (dist : GEM) (pi : List ℝ) (K : ℕ) : EReal :=
  let logprobs : List EReal := (List.range pi.length).map (fun i =>
    betaLogpdf (gemBetas pi i) (1 - dist.d) (dist.alpha + (i + 1) * dist.d))
  (logprobs.take K).sum

/-- The claim's spec-side stick-breaking fractions: `β_0 = pi_0` and
`β_i = 1 - pi_i / pi_(i-1)` for `i ≥ 1`. -/
def specStickBeta (pi : List ℝ) (i : ℕ) : ℝ :=
  if i = 0 then pi.getD 0 0 else 1 - pi.getD i 0 / pi.getD (i - 1) 0

theorem segsum_map_eq {α : Type} (f : α → ℝ) (x : List α) (c : List ℕ) (k : ℕ) :
    segsum (x.map f) c k
      = ((((c.zip x).filter (fun p => p.1 = k)).map Prod.snd).map f).sum := by
  induction c generalizing x with
  | nil => simp [segsum]
  | cons a t ih =>
    cases x with
    | nil => simp [segsum]
    | cons r xs =>
      by_cases hak : a = k
      · simpa [segsum, List.filter_cons, hak] using congrArg (f r + ·) (ih xs)
      · simpa [segsum, List.filter_cons, hak] using ih xs

theorem sum_map_one {α : Type} (l : List α) :
    (l.map (fun _ => (1 : ℝ))).sum = (l.length : ℝ) := by
  induction l with
  | nil => simp
  | cons a t ih =>
    simp [ih]
    ring

/-- C1: for every `NormalInverseGamma` prior and every observation batch,
the raw-batch `posterior` equals the statistics-path `posterior` applied
to the batch's sufficient statistics `(N, Σx, Σx²)`, and elementwise it
realises the closed-form conjugate update `l' = l + N`,
`m' = (l·m + Σx)/l'`, `a' = a + N/2`, `b' = b + ½(Σx² + l·m² − l'·m'²)`. -/
theorem c1_nig_batch_posterior_closed_form (dist : NormalInverseGamma) (x : List Row) :
    posteriorNIGBatch dist x = posteriorNIGStats dist (batchN x) (sumX x) (sumXsq x)
    ∧ ∀ i : ℕ,
      (posteriorNIGBatch dist x).l i = dist.l i + batchN x
      ∧ (posteriorNIGBatch dist x).m i
          = (dist.l i * dist.m i + sumX x i) / (dist.l i + batchN x)
      ∧ (posteriorNIGBatch dist x).a i = dist.a i + batchN x / 2
      ∧ (posteriorNIGBatch dist x).b i
          = dist.b i + 0.5 * (sumXsq x i + dist.l i * dist.m i ^ 2
              - (dist.l i + batchN x)
                * ((dist.l i * dist.m i + sumX x i) / (dist.l i + batchN x)) ^ 2) :=
  ⟨rfl, fun _ => ⟨rfl, rfl, rfl, rfl⟩⟩

/-- C8: the Dirichlet `posterior` from counts adds the counts to `alpha`
elementwise, and updating with all-zero counts returns the prior. -/
theorem c8_dirichlet_posterior_add (dist : Dirichlet) (counts : ℕ → ℕ → ℝ) :
    (posteriorDirichletCounts dist counts).alpha
        = (fun d v => dist.alpha d v + counts d v)
    ∧ posteriorDirichletCounts dist (fun _ _ => 0) = dist := by
  refine ⟨rfl, ?_⟩
  ext d v
  simp [posteriorDirichletCounts]

/-- C10: for a prior with `l > 0` elementwise, the statistics-path
`posterior` at the zero statistic `(0, 0, 0)` returns the prior unchanged. -/
theorem c10_zero_stats_identity (dist : NormalInverseGamma)
    (hl : ∀ i, 0 < dist.l i) :
    posteriorNIGStats dist 0 (fun _ => 0) (fun _ => 0) = dist := by
  have hne : ∀ i, dist.l i ≠ 0 := fun i => ne_of_gt (hl i)
  have hm : ∀ i, dist.l i * dist.m i / dist.l i = dist.m i := fun i => by
    rw [mul_comm, mul_div_assoc, div_self (hne i), mul_one]
  refine NormalInverseGamma.ext ?_ ?_ ?_ ?_ <;> funext i <;>
    simp [posteriorNIGStats, hm i]

theorem c10_witness :
    (∀ i : ℕ,
      (0 : ℝ) < (NormalInverseGamma.mk (fun _ => 0) (fun _ => 1) (fun _ => 1) (fun _ => 1)).l i)
    ∧ posteriorNIGStats
        (NormalInverseGamma.mk (fun _ => 0) (fun _ => 1) (fun _ => 1) (fun _ => 1))
        0 (fun _ => 0) (fun _ => 0)
      = NormalInverseGamma.mk (fun _ => 0) (fun _ => 1) (fun _ => 1) (fun _ => 1) :=
  ⟨fun _ => one_pos,
    c10_zero_stats_identity
      (NormalInverseGamma.mk (fun _ => 0) (fun _ => 1) (fun _ => 1) (fun _ => 1))
      (fun _ => one_pos)⟩

/-- C2: the per-cluster `posterior` paths (NormalInverseGamma and
Dirichlet) produce exactly `Kmax` entries; the `k`-th entry equals the
scalar single-cluster posterior applied to the sufficient statistics of
exactly the observations whose label is `k`; and clusters with no
observations receive the all-zero statistic (count `0`, zero sums, zero
one-hot counts). -/
theorem c2_clustered_posterior_groupwise (dist : NormalInverseGamma) (dd : Dirichlet)
    (x : List Row) (y : List (ℕ → ℕ)) (c c2 : List ℕ) (Kmax ncat : ℕ) :
    (posteriorNIGClusters dist x c Kmax).length = Kmax
    ∧ (posteriorDirichletClusters dd ncat y c2 Kmax).length = Kmax
    ∧ posteriorNIGClusters dist x c Kmax
        = (List.range Kmax).map (fun k => posteriorNIGBatch dist (clusterRows x c k))
    ∧ posteriorDirichletClusters dd ncat y c2 Kmax
        = (List.range Kmax).map (fun k => posteriorDirichletCounts dd (fun d v =>
            ((clusterRowsNat y c2 k).map (fun r => oneHot ncat (r d) v)).sum))
    ∧ (∀ k, k ∉ c → clusterRows x c k = [])
    ∧ (∀ k, k ∉ c2 → clusterRowsNat y c2 k = [])
    ∧ posteriorNIGBatch dist [] = posteriorNIGStats dist 0 (fun _ => 0) (fun _ => 0) := by
  refine ⟨by simp [posteriorNIGClusters], by simp [posteriorDirichletClusters],
    ?_, ?_, ?_, ?_, ?_⟩
  · simp only [posteriorNIGClusters, posteriorNIGBatch]
    congr 1
    funext k
    have hN : segsum (x.map fun _ => (1 : ℝ)) c k = batchN (clusterRows x c k) := by
      rw [segsum_map_eq (fun _ => (1 : ℝ)) x c k, sum_map_one]
      simp [batchN, clusterRows]
    have hS : (fun i => segsum (x.map fun r => r i) c k) = sumX (clusterRows x c k) :=
      funext fun i => by
        rw [segsum_map_eq (fun r => r i) x c k]
        simp [sumX, clusterRows]
    have hQ : (fun i => segsum (x.map fun r => (r i) ^ 2) c k)
        = sumXsq (clusterRows x c k) :=
      funext fun i => by
        rw [segsum_map_eq (fun r => (r i) ^ 2) x c k]
        simp [sumXsq, clusterRows]
    rw [hN, hS, hQ]
  · simp only [posteriorDirichletClusters]
    congr 1
    funext k
    congr 1
    funext d v
    rw [segsum_map_eq (fun r => oneHot ncat (r d) v) y c2 k]
    simp [clusterRowsNat]
  · intro k hk
    have h0 : ∀ p ∈ c.zip x, ¬(decide (p.1 = k) = true) := by
      intro p hp
      simp only [decide_eq_true_eq]
      intro h
      exact hk (h ▸ (List.of_mem_zip hp).1)
    simp [clusterRows, List.filter_eq_nil_iff.mpr h0]
  · intro k hk
    have h0 : ∀ p ∈ c2.zip y, ¬(decide (p.1 = k) = true) := by
      intro p hp
      simp only [decide_eq_true_eq]
      intro h
      exact hk (h ▸ (List.of_mem_zip hp).1)
    simp [clusterRowsNat, List.filter_eq_nil_iff.mpr h0]
  · have h0 : batchN ([] : List Row) = 0 := by simp [batchN]
    have h1 : sumX [] = (fun _ : ℕ => (0 : ℝ)) := funext fun _ => rfl
    have h2 : sumXsq [] = (fun _ : ℕ => (0 : ℝ)) := funext fun _ => rfl
    simp only [posteriorNIGBatch]
    rw [h0, h1, h2]

/-- C6: updating twice with statistics `(N1, Σx1, Σx²1)` then
`(N2, Σx2, Σx²2)` equals updating once with the combined statistics. -/
theorem c6_nig_posterior_additive (dist : NormalInverseGamma) (N1 N2 : ℝ)
    (s1 q1 s2 q2 : Row) (hl : ∀ i, 0 < dist.l i) (hN1 : 0 ≤ N1) (hN2 : 0 ≤ N2) :
    posteriorNIGStats (posteriorNIGStats dist N1 s1 q1) N2 s2 q2
      = posteriorNIGStats dist (N1 + N2) (fun i => s1 i + s2 i) (fun i => q1 i + q2 i) := by
  have h1 : ∀ i, dist.l i + N1 ≠ 0 := fun i => by have := hl i; positivity
  have h2 : ∀ i, dist.l i + N1 + N2 ≠ 0 := fun i => by have := hl i; positivity
  have hkey : ∀ i, (dist.l i + N1) * ((dist.l i * dist.m i + s1 i) / (dist.l i + N1))
      = dist.l i * dist.m i + s1 i := fun i => by
    rw [mul_comm, div_mul_cancel₀ _ (h1 i)]
  ext i <;> simp only [posteriorNIGStats]
  · rw [hkey i]
    ring
  · ring
  · ring
  · rw [hkey i]
    ring

theorem c6_witness :
    (∀ i : ℕ,
      (0 : ℝ) < (NormalInverseGamma.mk (fun _ => 1) (fun _ => 2) (fun _ => 3) (fun _ => 4)).l i)
    ∧ (0 : ℝ) ≤ 1 ∧ (0 : ℝ) ≤ 2
    ∧ posteriorNIGStats
        (posteriorNIGStats
          (NormalInverseGamma.mk (fun _ => 1) (fun _ => 2) (fun _ => 3) (fun _ => 4))
          1 (fun _ => 5) (fun _ => 6))
        2 (fun _ => 7) (fun _ => 8)
      = posteriorNIGStats
          (NormalInverseGamma.mk (fun _ => 1) (fun _ => 2) (fun _ => 3) (fun _ => 4))
          (1 + 2) (fun i => (fun _ : ℕ => (5 : ℝ)) i + (fun _ : ℕ => (7 : ℝ)) i)
          (fun i => (fun _ : ℕ => (6 : ℝ)) i + (fun _ : ℕ => (8 : ℝ)) i) :=
  ⟨fun _ => two_pos, zero_le_one, by norm_num,
    c6_nig_posterior_additive
      (NormalInverseGamma.mk (fun _ => 1) (fun _ => 2) (fun _ => 3) (fun _ => 4))
      1 2 (fun _ => 5) (fun _ => 6) (fun _ => 7) (fun _ => 8)
      (fun _ => two_pos) zero_le_one (by norm_num)⟩

/-- Concrete prior for the C3 counterexample: `l = e` makes
`log l = 1 ≠ 0`, separating `exp(log σ / 2)` from `exp(-log λ / 2)`. -/
def c3Prior : NormalInverseGamma :=
  ⟨fun _ => 0, fun _ => Real.exp 1, fun _ => 1, fun _ => 1⟩

/-- C3 counterexample: under the zero interpretation of both primitive
draws, the `std` field returned by `sample` does NOT equal
`exp(log σ / 2)` with `log σ = -log l - log λ` (here `log λ = 0 - log b`),
refuting the claim at this concrete input: the code returns
`exp(-log λ / 2)` instead (the `-log l` term is absent). -/
theorem c3_sample_nig_std_counterexample :
    (sampleNIG (fun _ _ => 0) (fun _ _ => 0) (PRNGKey.base 0) c3Prior).std 0
      ≠ Real.exp ((-Real.log (c3Prior.l 0) - ((0 : ℝ) - Real.log (c3Prior.b 0))) / 2) := by
  have hstd : (sampleNIG (fun _ _ => 0) (fun _ _ => 0) (PRNGKey.base 0) c3Prior).std 0
      = Real.exp 0 := by
    simp [sampleNIG, c3Prior]
  rw [hstd]
  simp only [c3Prior, Real.log_exp, Real.log_one]
  intro h
  rw [Real.exp_eq_exp] at h
  norm_num at h

/-- C3 amended: `sample(key, NormalInverseGamma)` returns a `Normal` whose
`std` equals `exp(-log λ / 2)` (with `log λ = loggamma(key, a) - log b` the
log-space Gamma draw), and whose `mu` equals `m + z · exp(log σ / 2)` with
`log σ = -log l - log λ` and `z` the standard-normal draw at the second
split key. -/
theorem c3_sample_nig_amended (G : PRNGKey → ℝ → ℝ) (Z : PRNGKey → ℕ → ℝ)
    (key : PRNGKey) (dist : NormalInverseGamma) (i : ℕ) :
    (sampleNIG G Z key dist).std i
      = Real.exp (-(G key (dist.a i) - Real.log (dist.b i)) / 2)
    ∧ (sampleNIG G Z key dist).mu i
      = dist.m i + Z (keySplit key).2 i
          * Real.exp ((-Real.log (dist.l i) - (G key (dist.a i) - Real.log (dist.b i))) / 2) :=
  ⟨rfl, rfl⟩

/-- Concrete prior for the C9 theorem. -/
def c9Prior : NormalInverseGamma := ⟨fun _ => 0, fun _ => 1, fun _ => 1, fun _ => 1⟩

/-- A loggamma interpretation that differs from the zero interpretation
only at the raw (unsplit) input key `base 0`. -/
def c9AltGamma : PRNGKey → ℝ → ℝ := fun k _ => if k = PRNGKey.base 0 then 1 else 0

/-- C9: `sample(key, NormalInverseGamma)` passes the unsplit input key to
the loggamma primitive (line 76 uses `key`, not `keys[0]`): two loggamma
interpretations that agree on every key other than the input key itself
nevertheless produce different samples, so a primitive draw is performed
at the unsplit key, contradicting the claim. -/
theorem c9_loggamma_uses_unsplit_key :
    (∀ (k : PRNGKey) (r : ℝ), k = PRNGKey.base 0 ∨ (fun _ _ => (0 : ℝ)) k r = c9AltGamma k r)
    ∧ sampleNIG (fun _ _ => 0) (fun _ _ => 0) (PRNGKey.base 0) c9Prior
        ≠ sampleNIG c9AltGamma (fun _ _ => 0) (PRNGKey.base 0) c9Prior := by
  constructor
  · intro k r
    by_cases hk : k = PRNGKey.base 0
    · exact Or.inl hk
    · exact Or.inr (by simp [c9AltGamma, hk])
  · have h1 : (sampleNIG (fun _ _ => 0) (fun _ _ => 0) (PRNGKey.base 0) c9Prior).std 0
        = Real.exp 0 := by
      simp [sampleNIG, c9Prior]
    have h2 : (sampleNIG c9AltGamma (fun _ _ => 0) (PRNGKey.base 0) c9Prior).std 0
        = Real.exp (-(1 / 2)) := by
      simp [sampleNIG, c9Prior, c9AltGamma]
      norm_num
    intro h
    have hs := congrFun (congrArg Normal.std h) 0
    rw [h1, h2, Real.exp_eq_exp] at hs
    norm_num at hs

/-- Concrete batched categorical for the C4 theorem: the two cluster
slices of `logprobs` differ. -/
def c4Batched : BCategorical :=
  ⟨fun k d v => if k = 0 then -(1 + (d : ℝ) + (v : ℝ)) else -5⟩

/-- C4: `Categorical.__getitem__` ignores its key: indexing the batched
categorical at cluster `1` returns the cluster-`0` slice, which differs
from the cluster-`1` slice; consequently `logpdf(dist, x, c)` for a
categorical container evaluates the density under cluster `0`'s
parameters even when `c = 1`. -/
theorem c4_categorical_getitem_ignores_key :
    (c4Batched.getItem 1).logprobs = c4Batched.logprobs 0
    ∧ (c4Batched.getItem 1).logprobs 0 0 ≠ c4Batched.logprobs 1 0 0
    ∧ logpdfCategoricalCluster c4Batched 1 2 (fun _ => 0) 1
        = logpdfCategorical (Categorical.mk (c4Batched.logprobs 0)) 1 2 (fun _ => 0) := by
  refine ⟨rfl, ?_, rfl⟩
  norm_num [c4Batched, BCategorical.getItem]

/-- Concrete categorical for the C7 counterexample. -/
def c7Cat : Categorical := ⟨fun d v => -(1 + (d : ℝ) + (v : ℝ))⟩

/-- C7 counterexample: evaluating `logpdf(Categorical, x)` at the
out-of-range category value `5` (with `K = 2`) does not fail: JAX clamps
the gather index, and the evaluation returns the definite value
`logprobs[0, 1] = -2`, refuting the claim that it errors. -/
theorem c7_categorical_out_of_range_counterexample :
    logpdfCategorical c7Cat 1 2 (fun _ => 5) = c7Cat.logprobs 0 1
    ∧ logpdfCategorical c7Cat 1 2 (fun _ => 5) = -2 := by
  constructor <;> norm_num [logpdfCategorical, jaxIndex, c7Cat]

/-- C7 amended: when every observed category value is in `[0, K)`,
`logpdf(Categorical, x)` equals `Σ_d logprobs[d, x_d]`; an out-of-range
value does not raise — the gather index is wrapped (if negative) and
clamped into `[0, K-1]` (see `jaxIndex` and the counterexample). -/
theorem c7_categorical_logpdf_amended (dist : Categorical) (D K : ℕ) (x : ℕ → ℤ)
    (hx : ∀ d, d < D → 0 ≤ x d ∧ x d < K) :
    logpdfCategorical dist D K x
      = ∑ d in Finset.range D, dist.logprobs d (x d).toNat := by
  unfold logpdfCategorical
  refine Finset.sum_congr rfl fun d hd => ?_
  obtain ⟨h0, hK⟩ := hx d (Finset.mem_range.mp hd)
  have hle : x d ≤ (K : ℤ) - 1 := by omega
  congr 1
  simp only [jaxIndex]
  rw [if_neg (not_lt.mpr h0), max_eq_left h0, min_eq_left hle]

theorem c7_witness :
    (∀ d, d < 1 → 0 ≤ (fun _ : ℕ => (1 : ℤ)) d ∧ (fun _ : ℕ => (1 : ℤ)) d < 2)
    ∧ logpdfCategorical (Categorical.mk (fun d v => (d : ℝ) + (v : ℝ))) 1 2
        (fun _ : ℕ => (1 : ℤ))
      = ∑ d in Finset.range 1,
          (Categorical.mk (fun d v => (d : ℝ) + (v : ℝ))).logprobs d
            ((fun _ : ℕ => (1 : ℤ)) d).toNat :=
  ⟨fun _ _ => ⟨by norm_num, by norm_num⟩,
    c7_categorical_logpdf_amended (Categorical.mk (fun d v => (d : ℝ) + (v : ℝ))) 1 2
      (fun _ => 1) (fun _ _ => ⟨by norm_num, by norm_num⟩)⟩

theorem list_range_map_sum_ereal (f : ℕ → EReal) (n : ℕ) :
    ((List.range n).map f).sum = ∑ i in Finset.range n, f i := by
  induction n with
  | zero => simp
  | succ n ih =>
    rw [List.range_succ, List.map_append, List.sum_append, Finset.sum_range_succ, ih]
    simp

theorem range_take (n K : ℕ) (h : K ≤ n) : (List.range n).take K = List.range K := by
  rw [List.take_range, min_eq_left h]

theorem gemBetas_eq_spec (pi : List ℝ) (i : ℕ) : gemBetas pi i = specStickBeta pi i := by
  unfold gemBetas specStickBeta gemBetasRaw
  by_cases h : i = 0
  · simp [h]
  · simp [h]

/-- C5: `logpdf(GEM, pi, K)` equals the sum over `i = 0..K-1` of the
`Beta(1-d, alpha+(i+1)d)` log-density at the stick-breaking fraction
`β_i` (`β_0 = pi_0` by the explicit override, `β_i = 1 - pi_i/pi_(i-1)`
for `i ≥ 1`); for `GEM(alpha=1, d=0)`, `pi=[1.0]`, `K=1` it reduces to the
`Beta(1, 1)` log-density at `1.0`, whose value is the finite real `0`. -/
theorem c5_gem_logpdf_stick_breaking (dist : GEM) (pi : List ℝ) (K : ℕ)
    (hd0 : 0 ≤ dist.d) (hd1 : dist.d < 1) (ha : -dist.d < dist.alpha)
    (hpi : ∀ p ∈ pi, 0 < p ∧ p ≤ 1) (hK1 : 1 ≤ K) (hKn : K ≤ pi.length) :
    logpdfGEM dist pi K
      = ∑ i in Finset.range K,
          betaLogpdf (specStickBeta pi i) (1 - dist.d) (dist.alpha + (i + 1) * dist.d)
    ∧ logpdfGEM (GEM.mk 1 0) [1] 1 = betaLogpdf 1 1 1
    ∧ betaLogpdf 1 1 1 = ((0 : ℝ) : EReal) := by
  refine ⟨?_, ?_, ?_⟩
  · simp only [logpdfGEM]
    rw [← List.map_take, range_take pi.length K hKn, list_range_map_sum_ereal]
    exact Finset.sum_congr rfl fun i _ => by rw [gemBetas_eq_spec]
  · simp [logpdfGEM, gemBetas, List.range_succ]
  · norm_num [betaLogpdf, xlogy, xlog1py, betaln, Real.Gamma_one, Real.Gamma_two]

theorem c5_witness :
    ((0 : ℝ) ≤ (GEM.mk 1 0).d ∧ (GEM.mk 1 0).d < 1
      ∧ -(GEM.mk 1 0).d < (GEM.mk 1 0).alpha
      ∧ (∀ p ∈ [(1 : ℝ)], 0 < p ∧ p ≤ 1)
      ∧ 1 ≤ 1 ∧ 1 ≤ ([(1 : ℝ)]).length)
    ∧ logpdfGEM (GEM.mk 1 0) [1] 1
        = ∑ i in Finset.range 1,
            betaLogpdf (specStickBeta [1] i) (1 - (GEM.mk 1 0).d)
              ((GEM.mk 1 0).alpha + (i + 1) * (GEM.mk 1 0).d) :=
  ⟨⟨le_refl 0, zero_lt_one, by norm_num,
      fun p hp => by
        rw [List.mem_singleton] at hp
        subst hp
        exact ⟨zero_lt_one, le_refl 1⟩,
      le_refl 1, by simp⟩,
    (c5_gem_logpdf_stick_breaking (GEM.mk 1 0) [1] 1 (le_refl 0) zero_lt_one
      (by norm_num)
      (fun p hp => by
        rw [List.mem_singleton] at hp
        subst hp
        exact ⟨zero_lt_one, le_refl 1⟩)
      (le_refl 1) (by simp)).1⟩

end

end GenSpn
